import Mathlib

/-!
# Verification of `starlight-utils` phone normalization

Shallow embedding of `src/starlight-utils/src/phone.rs`. Rust `&str` values
are modelled as `List Char`; at every point where the Rust code slices a
string by byte index, the sliced string is ASCII (sanitized digits/`'+'`),
so char indices and byte indices coincide and `List.drop`/`List.take` are a
faithful model of the slices.
-/

set_option autoImplicit false

namespace Starlight

/-- Convert a string literal to the `List Char` representation used here. -/
def str (s : String) : List Char := s.toList

/-- Result record, embedding of `struct PhoneNumber` from `phone.rs`.
`raw` is documented in the source as "Original input". -/
structure PhoneNumber where
  raw : List Char
  e164 : List Char
  country_code : List Char
  national_number : List Char
  iso_country : Option (List Char)
  deriving DecidableEq, Repr

/-- Embedding of Rust `s.starts_with(c)` for a single char pattern. -/
def startsWithChar (s : List Char) (c : Char) : Bool :=
  match s with
  | [] => false
  | a :: _ => a == c

/-- Helper for `strip_non_digits_keep_plus`: the loop body, carrying the
running char index `i` (Rust keeps `(i, ch)` from `.chars().enumerate()`). -/
def stripAux (i : Nat) (l : List Char) : List Char :=
  match l with
  | [] => []
  | c :: cs =>
    if c.isDigit then c :: stripAux (i + 1) cs
    else if c == '+' && i == 0 then c :: stripAux (i + 1) cs
    else stripAux (i + 1) cs

/-- Embedding of `strip_non_digits_keep_plus`: keep ASCII digits, and a `'+'`
only when it is the first character of the input. -/
def strip_non_digits_keep_plus (input : List Char) : List Char :=
  stripAux 0 input

/-- Embedding of `is_valid_e164`: `'+'` followed by 7 to 15 ASCII digits. -/
def is_valid_e164 (s : List Char) : Bool :=
  match s with
  | [] => false
  | c :: digits =>
    if c != '+' then false
    else if digits.isEmpty || !digits.all Char.isDigit then false
    else decide (7 ≤ digits.length ∧ digits.length ≤ 15)

/-- The calling codes listed in `is_known_code` (`matches!` alternatives,
in source order). -/
def knownCodesList : List (List Char) :=
  [str "1", str "7", str "33", str "34", str "39", str "44", str "49",
   str "52", str "55", str "60", str "61", str "62", str "63", str "64",
   str "65", str "66", str "81", str "82", str "84", str "86", str "852",
   str "853", str "886", str "91"]

/-- Embedding of `is_known_code`: membership among the listed code literals. -/
def is_known_code (code : List Char) : Bool :=
  knownCodesList.contains code

/-- First-match association-list lookup, modelling a Rust `match` over
distinct string literal patterns with a `_ => None` default. -/
def lookupTbl {α : Type} (t : List (List Char × α)) (c : List Char) : Option α :=
  match t with
  | [] => none
  | (k, v) :: rest => if c = k then some v else lookupTbl rest c

/-- The `code => iso` arms of `code_to_iso`, in source order. -/
def codeIsoTable : List (List Char × List Char) :=
  [(str "84", str "VN"), (str "1", str "US"), (str "44", str "GB"),
   (str "49", str "DE"), (str "33", str "FR"), (str "81", str "JP"),
   (str "82", str "KR"), (str "65", str "SG"), (str "66", str "TH"),
   (str "86", str "CN"), (str "852", str "HK"), (str "853", str "MO"),
   (str "886", str "TW"), (str "62", str "ID"), (str "60", str "MY"),
   (str "63", str "PH"), (str "61", str "AU"), (str "64", str "NZ"),
   (str "34", str "ES"), (str "39", str "IT"), (str "7", str "RU"),
   (str "55", str "BR"), (str "52", str "MX"), (str "91", str "IN")]

/-- Embedding of `code_to_iso`: the calling-code to ISO-country table. -/
def code_to_iso (code : List Char) : Option (List Char) :=
  lookupTbl codeIsoTable code

/-- The codes accepted by `code_to_cow_static`, in source order. -/
def cowCodesList : List (List Char) :=
  [str "1", str "7", str "33", str "34", str "39", str "44", str "49",
   str "52", str "55", str "60", str "61", str "62", str "63", str "64",
   str "65", str "66", str "81", str "82", str "84", str "86", str "852",
   str "853", str "886", str "91"]

/-- Embedding of `code_to_cow_static`: each arm maps a code literal to the
identical static literal, so the function is the identity on the listed
codes and `None` elsewhere. -/
def code_to_cow_static (code : List Char) : Option (List Char) :=
  if cowCodesList.contains code then some code else none

/-- Embedding of `is_trunk_zero_country`. -/
def is_trunk_zero_country (iso : List Char) : Bool :=
  [str "VN", str "GB", str "DE", str "FR", str "IT", str "TH", str "MY",
   str "ID", str "JP", str "KR"].contains iso

/-- One iteration of the `for len in [3usize, 2, 1]` loop of
`match_country_code_prefix` (the name is abbreviated here).
`none` means `continue`; `some r` means the whole function returns `r`
(`r = none` arises from the `?` on `code_to_cow_static`). -/
def tryLen (d : List Char) (len : Nat) :
    Option (Option (List Char × Option (List Char))) :=
  if d.length < len then none
  else
    let cand := d.take len
    match code_to_iso cand with
    | some iso =>
      some (match code_to_cow_static cand with
            | some c => some (c, some iso)
            | none => none)
    | none =>
      if is_known_code cand then
        some (match code_to_cow_static cand with
              | some c => some (c, none)
              | none => none)
      else none

/-- Embedding of `match_country_code_prefix`: longest match among
3-, 2-, 1-digit candidates, in that order. -/
def match_country_code_pfx (d : List Char) :
    Option (List Char × Option (List Char)) :=
  match tryLen d 3 with
  | some r => r
  | none =>
    match tryLen d 2 with
    | some r => r
    | none =>
      match tryLen d 1 with
      | some r => r
      | none => none

/-- Embedding of `detect_country`. -/
def detect_country (e164 : List Char) : Option (List Char) :=
  if !is_valid_e164 e164 then none
  else
    match match_country_code_pfx (e164.drop 1) with
    | none => none
    | some (cc, iso) =>
      match iso with
      | some i => some i
      | none => code_to_iso cc

/-- Model of Rust `str::trim` (whitespace removed from both ends). -/
def rustTrim (s : List Char) : List Char :=
  ((s.dropWhile Char.isWhitespace).reverse.dropWhile Char.isWhitespace).reverse

/-- The ISO alpha-2 arms of `resolve_country_hint`, in source order. -/
def isoHintTable : List (List Char × (List Char × Option (List Char))) :=
  [(str "VN", (str "84", some (str "VN"))),
   (str "US", (str "1", some (str "US"))),
   (str "CA", (str "1", some (str "CA"))),
   (str "SG", (str "65", some (str "SG"))),
   (str "TH", (str "66", some (str "TH"))),
   (str "CN", (str "86", some (str "CN"))),
   (str "JP", (str "81", some (str "JP"))),
   (str "KR", (str "82", some (str "KR"))),
   (str "GB", (str "44", some (str "GB"))),
   (str "DE", (str "49", some (str "DE"))),
   (str "FR", (str "33", some (str "FR"))),
   (str "AU", (str "61", some (str "AU"))),
   (str "NZ", (str "64", some (str "NZ"))),
   (str "MY", (str "60", some (str "MY"))),
   (str "ID", (str "62", some (str "ID"))),
   (str "PH", (str "63", some (str "PH"))),
   (str "ES", (str "34", some (str "ES"))),
   (str "IT", (str "39", some (str "IT"))),
   (str "RU", (str "7", some (str "RU"))),
   (str "BR", (str "55", some (str "BR"))),
   (str "MX", (str "52", some (str "MX"))),
   (str "IN", (str "91", some (str "IN"))),
   (str "HK", (str "852", some (str "HK"))),
   (str "MO", (str "853", some (str "MO"))),
   (str "TW", (str "886", some (str "TW")))]

/-- Embedding of `resolve_country_hint`: accept `"+84"`, `"84"` and ISO
alpha-2 hints after trimming and ASCII-uppercasing. -/
def resolve_country_hint (hint : List Char) :
    Option (List Char × Option (List Char)) :=
  let up := (rustTrim hint).map Char.toUpper
  if startsWithChar up '+' && (up.drop 1).all Char.isDigit then
    let code := up.drop 1
    if !code.isEmpty && decide (code.length ≤ 3) then
      match code_to_cow_static code with
      | some c => some (c, code_to_iso code)
      | none => none
    else none
  else if up.all Char.isDigit && !up.isEmpty && decide (up.length ≤ 3) then
    match code_to_cow_static up with
    | some c => some (c, code_to_iso up)
    | none => none
  else
    match lookupTbl isoHintTable up with
    | some r => some r
    | none => none

/-- The `'+'`-form branch of `normalize_phone` (`raw` is the original input
string of that call; `digits` is `&s[1..]`). -/
def plusPath (raw digits : List Char) : Option PhoneNumber :=
  if !digits.all Char.isDigit then none
  else
    match match_country_code_pfx digits with
    | none => none
    | some (cc, iso) =>
      match (if cc.length ≤ digits.length
             then some (digits.drop cc.length) else none) with
      | none => none
      | some nsn0 =>
        let nsn :=
          if (iso.map is_trunk_zero_country).getD false && startsWithChar nsn0 '0'
          then nsn0.dropWhile (fun c => c == '0')
          else nsn0
        let e164 := '+' :: (cc ++ nsn)
        if !is_valid_e164 e164 then none
        else some ⟨raw, e164, cc, nsn, iso⟩

/-- The local/national branch of `normalize_phone` (uses the default-country
hint; `s` is the sanitized input). -/
def localPath (raw s dc : List Char) : Option PhoneNumber :=
  match resolve_country_hint dc with
  | none => none
  | some (cc, iso) =>
    let nsn0 := s.filter Char.isDigit
    let nsn :=
      if (iso.map is_trunk_zero_country).getD false
      then (if startsWithChar nsn0 '0' then nsn0.drop 1 else nsn0)
      else nsn0
    if nsn.isEmpty then none
    else
      let e164 := '+' :: (cc ++ nsn)
      if !is_valid_e164 e164 then none
      else some ⟨raw, e164, cc, nsn, iso⟩

/-- Embedding of `normalize_phone`. The `"00"` branch re-runs the whole
function on `"+" ++ &s[2..]`, exactly as the source does. -/
def normalize_phone (input dc : List Char) : Option PhoneNumber :=
  if (strip_non_digits_keep_plus input).isEmpty then none
  else if startsWithChar (strip_non_digits_keep_plus input) '+' then
    plusPath input ((strip_non_digits_keep_plus input).drop 1)
  else if h00 : (strip_non_digits_keep_plus input).take 2 = ['0', '0'] then
    normalize_phone ('+' :: (strip_non_digits_keep_plus input).drop 2) dc
  else localPath input (strip_non_digits_keep_plus input) dc
termination_by input.length
decreasing_by
  simp_wf
  have hstrip : ∀ (l : List Char) (i : Nat), (stripAux i l).length ≤ l.length := by
    intro l
    induction l with
    | nil => intro i; simp [stripAux]
    | cons c cs ih =>
      intro i
      rw [stripAux]
      split
      · simpa using Nat.succ_le_succ (ih (i + 1))
      · split
        · simpa using Nat.succ_le_succ (ih (i + 1))
        · exact Nat.le_succ_of_le (ih (i + 1))
  have hlen : (strip_non_digits_keep_plus input).length ≤ input.length :=
    hstrip input 0
  have h2 : 2 ≤ (strip_non_digits_keep_plus input).length := by
    have := congrArg List.length h00
    simp [List.length_take] at this
    omega
  simp [List.length_drop]
  omega

/-- Embedding of `normalize_vn_phone`. -/
def normalize_vn_phone (input : List Char) : Option (List Char) :=
  (normalize_phone input (str "VN")).map (fun p => p.e164)

/-! ## Panic-aware shadow model

Every Rust operation in `normalize_phone`'s call graph that can panic —
byte-index slicing (`&s[1..]`, `&s[2..]`, `&s[..len]`) and
`String::remove(0)` — is modelled here explicitly in an `Except Unit`
monad, where `Except.error ()` marks a would-be panic. All other
operations are total. The theorem for C8 proves this shadow model always
returns `Except.ok` of the plain model's answer. -/

/-- Panic model of a Rust slice `&s[i..]` (error = out-of-bounds panic). -/
def sliceFromE (s : List Char) (i : Nat) : Except Unit (List Char) :=
  if i ≤ s.length then Except.ok (s.drop i) else Except.error ()

/-- Panic model of a Rust slice `&s[..n]`. -/
def slicePreE (s : List Char) (n : Nat) : Except Unit (List Char) :=
  if n ≤ s.length then Except.ok (s.take n) else Except.error ()

/-- Panic model of `String::remove(0)` (error = empty-string panic). -/
def removeFirstE (s : List Char) : Except Unit (Char × List Char) :=
  match s with
  | [] => Except.error ()
  | c :: t => Except.ok (c, t)

/-- `is_valid_e164` with its `&s[1..]` slice made explicit. -/
def is_valid_e164E (s : List Char) : Except Unit Bool :=
  if !startsWithChar s '+' then Except.ok false
  else
    match sliceFromE s 1 with
    | Except.error e => Except.error e
    | Except.ok digits =>
      if digits.isEmpty || !digits.all Char.isDigit then Except.ok false
      else Except.ok (decide (7 ≤ digits.length ∧ digits.length ≤ 15))

/-- One loop iteration of the prefix matcher, with the `&d[..len]` slice
made explicit. -/
def tryLenE (d : List Char) (len : Nat) :
    Except Unit (Option (Option (List Char × Option (List Char)))) :=
  if d.length < len then Except.ok none
  else
    match slicePreE d len with
    | Except.error e => Except.error e
    | Except.ok cand =>
      match code_to_iso cand with
      | some iso =>
        Except.ok (some (match code_to_cow_static cand with
                         | some c => some (c, some iso)
                         | none => none))
      | none =>
        if is_known_code cand then
          Except.ok (some (match code_to_cow_static cand with
                           | some c => some (c, none)
                           | none => none))
        else Except.ok none

/-- The prefix matcher in the panic model. -/
def match_country_code_pfxE (d : List Char) :
    Except Unit (Option (List Char × Option (List Char))) :=
  match tryLenE d 3 with
  | Except.error e => Except.error e
  | Except.ok (some r) => Except.ok r
  | Except.ok none =>
    match tryLenE d 2 with
    | Except.error e => Except.error e
    | Except.ok (some r) => Except.ok r
    | Except.ok none =>
      match tryLenE d 1 with
      | Except.error e => Except.error e
      | Except.ok (some r) => Except.ok r
      | Except.ok none => Except.ok none

/-- `resolve_country_hint` in the panic model: the `&up[1..]` slices (one in
the short-circuit condition, one in the body) are explicit. -/
def resolve_country_hintE (hint : List Char) :
    Except Unit (Option (List Char × Option (List Char))) :=
  let up := (rustTrim hint).map Char.toUpper
  match (if startsWithChar up '+' then
           match sliceFromE up 1 with
           | Except.error e => Except.error e
           | Except.ok t => Except.ok (t.all Char.isDigit)
         else Except.ok false) with
  | Except.error e => Except.error e
  | Except.ok cond1 =>
    if cond1 then
      match sliceFromE up 1 with
      | Except.error e => Except.error e
      | Except.ok code =>
        if !code.isEmpty && decide (code.length ≤ 3) then
          match code_to_cow_static code with
          | some c => Except.ok (some (c, code_to_iso code))
          | none => Except.ok none
        else Except.ok none
    else if up.all Char.isDigit && !up.isEmpty && decide (up.length ≤ 3) then
      match code_to_cow_static up with
      | some c => Except.ok (some (c, code_to_iso up))
      | none => Except.ok none
    else
      match lookupTbl isoHintTable up with
      | some r => Except.ok (some r)
      | none => Except.ok none

/-- The `'+'` branch in the panic model. -/
def plusPathE (raw digits : List Char) : Except Unit (Option PhoneNumber) :=
  if !digits.all Char.isDigit then Except.ok none
  else
    match match_country_code_pfxE digits with
    | Except.error e => Except.error e
    | Except.ok none => Except.ok none
    | Except.ok (some (cc, iso)) =>
      match (if cc.length ≤ digits.length
             then some (digits.drop cc.length) else none) with
      | none => Except.ok none
      | some nsn0 =>
        let nsn :=
          if (iso.map is_trunk_zero_country).getD false && startsWithChar nsn0 '0'
          then nsn0.dropWhile (fun c => c == '0')
          else nsn0
        let e164 := '+' :: (cc ++ nsn)
        match is_valid_e164E e164 with
        | Except.error e => Except.error e
        | Except.ok b =>
          if !b then Except.ok none
          else Except.ok (some ⟨raw, e164, cc, nsn, iso⟩)

/-- The local branch in the panic model, with `remove(0)` explicit. -/
def localPathE (raw s dc : List Char) : Except Unit (Option PhoneNumber) :=
  match resolve_country_hintE dc with
  | Except.error e => Except.error e
  | Except.ok none => Except.ok none
  | Except.ok (some (cc, iso)) =>
    let nsn0 := s.filter Char.isDigit
    match (if (iso.map is_trunk_zero_country).getD false then
             (if startsWithChar nsn0 '0' then
                match removeFirstE nsn0 with
                | Except.error e => Except.error e
                | Except.ok pr => Except.ok pr.2
              else Except.ok nsn0)
           else Except.ok nsn0) with
    | Except.error e => Except.error e
    | Except.ok nsn =>
      if nsn.isEmpty then Except.ok none
      else
        let e164 := '+' :: (cc ++ nsn)
        match is_valid_e164E e164 with
        | Except.error e => Except.error e
        | Except.ok b =>
          if !b then Except.ok none
          else Except.ok (some ⟨raw, e164, cc, nsn, iso⟩)

/-- `normalize_phone` in the panic model: the `&s[1..]` and `&s[2..]` slices
are explicit (the `"00"` branch checks the slice, whose value when in
bounds is exactly `(…).drop 2`, then recurses on the rewritten string). -/
def normalize_phoneE (input dc : List Char) : Except Unit (Option PhoneNumber) :=
  if (strip_non_digits_keep_plus input).isEmpty then Except.ok none
  else if startsWithChar (strip_non_digits_keep_plus input) '+' then
    match sliceFromE (strip_non_digits_keep_plus input) 1 with
    | Except.error e => Except.error e
    | Except.ok digits => plusPathE input digits
  else if h00 : (strip_non_digits_keep_plus input).take 2 = ['0', '0'] then
    match sliceFromE (strip_non_digits_keep_plus input) 2 with
    | Except.error e => Except.error e
    | Except.ok _ =>
      normalize_phoneE ('+' :: (strip_non_digits_keep_plus input).drop 2) dc
  else localPathE input (strip_non_digits_keep_plus input) dc
termination_by input.length
decreasing_by
  simp_wf
  have hstrip : ∀ (l : List Char) (i : Nat), (stripAux i l).length ≤ l.length := by
    intro l
    induction l with
    | nil => intro i; simp [stripAux]
    | cons c cs ih =>
      intro i
      rw [stripAux]
      split
      · simpa using Nat.succ_le_succ (ih (i + 1))
      · split
        · simpa using Nat.succ_le_succ (ih (i + 1))
        · exact Nat.le_succ_of_le (ih (i + 1))
  have hlen : (strip_non_digits_keep_plus input).length ≤ input.length :=
    hstrip input 0
  have h2 : 2 ≤ (strip_non_digits_keep_plus input).length := by
    have := congrArg List.length h00
    simp [List.length_take] at this
    omega
  simp [List.length_drop]
  omega

/-! ## Helper lemmas about the sanitizer and the tables -/

/-- The sanitizer never lengthens its input. -/
theorem stripAux_length_le (l : List Char) : ∀ i, (stripAux i l).length ≤ l.length := by
  induction l with
  | nil => intro i; simp [stripAux]
  | cons c cs ih =>
    intro i
    rw [stripAux]
    split
    · simpa using Nat.succ_le_succ (ih (i + 1))
    · split
      · simpa using Nat.succ_le_succ (ih (i + 1))
      · exact Nat.le_succ_of_le (ih (i + 1))

theorem startsWithChar_ne_nil {s : List Char} {c : Char}
    (h : startsWithChar s c = true) : s.isEmpty = false := by
  cases s <;> simp_all [startsWithChar]

/-- Once past index 0, the sanitizer keeps only ASCII digits. -/
theorem stripAux_all_digits (l : List Char) :
    ∀ i, i ≠ 0 → (stripAux i l).all Char.isDigit = true := by
  induction l with
  | nil => intro i _; simp [stripAux]
  | cons c cs ih =>
    intro i hi
    rw [stripAux]
    split
    · next hc => simp [List.all_cons, hc, ih (i + 1) (by omega)]
    · split
      · next hc2 =>
        simp only [Bool.and_eq_true, beq_iff_eq] at hc2
        omega
      · exact ih (i + 1) (by omega)

/-- The sanitizer fixes strings that are all ASCII digits. -/
theorem stripAux_of_all_digits (l : List Char) (h : l.all Char.isDigit = true) :
    ∀ i, stripAux i l = l := by
  induction l with
  | nil => intro i; rfl
  | cons c cs ih =>
    intro i
    simp only [List.all_cons, Bool.and_eq_true] at h
    simp [stripAux, h.1, ih h.2]

/-- The sanitizer fixes `'+'` followed by ASCII digits. -/
theorem strip_plus_digits (t : List Char) (h : t.all Char.isDigit = true) :
    strip_non_digits_keep_plus ('+' :: t) = '+' :: t := by
  have hp : ('+').isDigit = false := by decide
  simp [strip_non_digits_keep_plus, stripAux, hp, stripAux_of_all_digits t h]

/-- Shape of sanitized output: empty, `'+'` followed by digits, or all digits. -/
theorem strip_structure (input : List Char) :
    strip_non_digits_keep_plus input = [] ∨
    (∃ t, strip_non_digits_keep_plus input = '+' :: t ∧ t.all Char.isDigit = true) ∨
    (strip_non_digits_keep_plus input).all Char.isDigit = true := by
  unfold strip_non_digits_keep_plus
  cases input with
  | nil => left; rfl
  | cons c cs =>
    rw [stripAux]
    by_cases hc : c.isDigit
    · right; right
      simp [hc, List.all_cons, stripAux_all_digits cs 1 one_ne_zero]
    · by_cases hp : c = '+'
      · right; left
        exact ⟨stripAux 1 cs, by simp [hc, hp], stripAux_all_digits cs 1 one_ne_zero⟩
      · right; right
        simp [hc, hp, stripAux_all_digits cs 1 one_ne_zero]

theorem contains_mem {l : List (List Char)} {c : List Char}
    (h : l.contains c = true) : c ∈ l := by
  simpa using h

theorem lookupTbl_some_mem {α : Type} {t : List (List Char × α)} {c : List Char} {v : α}
    (h : lookupTbl t c = some v) : (c, v) ∈ t := by
  induction t with
  | nil => simp [lookupTbl] at h
  | cons e rest ih =>
    obtain ⟨k, w⟩ := e
    rw [lookupTbl] at h
    split at h
    · next hck =>
      subst hck
      cases h
      exact List.mem_cons_self _ _
    · exact List.mem_cons_of_mem _ (ih h)

theorem cow_some {code c : List Char} (h : code_to_cow_static code = some c) :
    c = code ∧ code ∈ cowCodesList := by
  unfold code_to_cow_static at h
  split at h
  · next hm =>
    cases h
    exact ⟨rfl, contains_mem hm⟩
  · cases h

/-- Characterization of `is_valid_e164` used throughout. -/
theorem valid_iff (s : List Char) :
    is_valid_e164 s = true ↔
      ∃ d, s = '+' :: d ∧ d.all Char.isDigit = true ∧
        7 ≤ d.length ∧ d.length ≤ 15 := by
  cases s with
  | nil => simp [is_valid_e164]
  | cons c d =>
    by_cases hc : c = '+'
    · subst hc
      cases d with
      | nil => simp [is_valid_e164]
      | cons a t =>
        by_cases hall : (a :: t).all Char.isDigit = true
        · by_cases h7 : 7 ≤ (a :: t).length
          · by_cases h15 : (a :: t).length ≤ 15
            · simp only [is_valid_e164, hall, h7, h15]
              have hall2 := List.all_eq_true.mp hall
              simp [h7, h15, hall]
              refine ⟨⟨hall2 a (List.mem_cons_self a t),
                       fun x hx => hall2 x (List.mem_cons_of_mem a hx)⟩,
                      by simpa using h7, by simpa using h15⟩
            · simp [is_valid_e164, hall, h7, h15]
              intro _ h2
              exfalso
              simp at h15
              omega
          · simp [is_valid_e164, hall, h7]
            intro h1
            exfalso
            simp at h7
            omega
        · have hall' : (a :: t).all Char.isDigit = false := by
            simpa using hall
          simp [is_valid_e164, hall']
          intro ha hall2 h1
          exfalso
          have hgood : (a :: t).all Char.isDigit = true := by
            rw [List.all_eq_true]
            intro x hx
            rcases List.mem_cons.mp hx with rfl | hx2
            · exact ha
            · exact hall2 x hx2
          rw [hall'] at hgood
          cases hgood
    · simp [is_valid_e164, hc]

/-! ## Lemmas about country-code matching -/

theorem tryLen_some_some {d : List Char} {len : Nat} {cc : List Char}
    {iso : Option (List Char)}
    (h : tryLen d len = some (some (cc, iso))) :
    len ≤ d.length ∧ cc = d.take len ∧ cc ∈ cowCodesList ∧
      ((∃ i, code_to_iso cc = some i ∧ iso = some i) ∨
       (code_to_iso cc = none ∧ is_known_code cc = true ∧ iso = none)) := by
  simp only [tryLen] at h
  split at h
  · cases h
  · next hlen =>
    refine ⟨by omega, ?_⟩
    rcases hi : code_to_iso (d.take len) with _ | i
    · rw [hi] at h
      by_cases hknown : is_known_code (d.take len) = true
      · rw [if_pos hknown] at h
        rcases hcow : code_to_cow_static (d.take len) with _ | c
        · rw [hcow] at h
          simp at h
        · rw [hcow] at h
          obtain ⟨hc, hmem⟩ := cow_some hcow
          subst hc
          simp only [Option.some.injEq, Prod.mk.injEq] at h
          obtain ⟨h1, h2⟩ := h
          subst h1
          subst h2
          exact ⟨rfl, hmem, Or.inr ⟨hi, hknown, rfl⟩⟩
      · rw [if_neg hknown] at h
        cases h
    · rw [hi] at h
      rcases hcow : code_to_cow_static (d.take len) with _ | c
      · rw [hcow] at h
        cases h
      · rw [hcow] at h
        obtain ⟨hc, hmem⟩ := cow_some hcow
        subst hc
        simp only [Option.some.injEq, Prod.mk.injEq] at h
        obtain ⟨h1, h2⟩ := h
        subst h1
        subst h2
        exact ⟨rfl, hmem, Or.inl ⟨i, hi, rfl⟩⟩

theorem match_pfx_inv {d cc : List Char} {iso : Option (List Char)}
    (h : match_country_code_pfx d = some (cc, iso)) :
    ∃ len, (len = 3 ∨ len = 2 ∨ len = 1) ∧ len ≤ d.length ∧
      cc = d.take len ∧ cc ∈ cowCodesList ∧
      ((∃ i, code_to_iso cc = some i ∧ iso = some i) ∨
       (code_to_iso cc = none ∧ is_known_code cc = true ∧ iso = none)) := by
  unfold match_country_code_pfx at h
  rcases h3 : tryLen d 3 with _ | r3
  · rw [h3] at h
    simp only [] at h
    rcases h2 : tryLen d 2 with _ | r2
    · rw [h2] at h
      simp only [] at h
      rcases h1 : tryLen d 1 with _ | r1
      · rw [h1] at h
        simp at h
      · rw [h1] at h
        simp only [] at h
        subst h
        obtain ⟨ha, hb, hc, hd⟩ := tryLen_some_some h1
        exact ⟨1, by omega, ha, hb, hc, hd⟩
    · rw [h2] at h
      simp only [] at h
      subst h
      obtain ⟨ha, hb, hc, hd⟩ := tryLen_some_some h2
      exact ⟨2, by omega, ha, hb, hc, hd⟩
  · rw [h3] at h
    simp only [] at h
    subst h
    obtain ⟨ha, hb, hc, hd⟩ := tryLen_some_some h3
    exact ⟨3, by omega, ha, hb, hc, hd⟩

/-- Every code in `code_to_iso`'s domain is among the known codes, and
vice versa; consequences needed below, all checked by computation. -/
theorem known_iso_domain :
    ∀ c ∈ knownCodesList, (code_to_iso c).isSome = true := by
  decide

theorem match_pfx_iso_some {d cc : List Char} {iso : Option (List Char)}
    (h : match_country_code_pfx d = some (cc, iso)) : iso.isSome = true := by
  obtain ⟨len, _, _, _, _, hcase⟩ := match_pfx_inv h
  rcases hcase with ⟨i, _, rfl⟩ | ⟨hnone, hknown, rfl⟩
  · rfl
  · have := known_iso_domain cc (contains_mem hknown)
    rw [hnone] at this
    cases this

/-- The matched code is the take-prefix of the digits, of its own length. -/
theorem match_pfx_take {d cc : List Char} {iso : Option (List Char)}
    (h : match_country_code_pfx d = some (cc, iso)) :
    cc = d.take cc.length ∧ cc.length ≤ d.length ∧
      1 ≤ cc.length ∧ cc.length ≤ 3 := by
  obtain ⟨len, hlen3, hled, htake, hmem, _⟩ := match_pfx_inv h
  have hcclen : cc.length = len := by
    rw [htake, List.length_take]
    omega
  have hbounds : 1 ≤ cc.length ∧ cc.length ≤ 3 := by omega
  exact ⟨by rw [hcclen, htake], by omega, hbounds⟩

/-! ## Reduction lemmas for `normalize_phone` -/

/-- When the sanitized input starts with `'+'`, `normalize_phone` is the
`'+'` branch. -/
theorem normalize_of_strip_plus {input : List Char} (dc : List Char)
    (h : startsWithChar (strip_non_digits_keep_plus input) '+' = true) :
    normalize_phone input dc =
      plusPath input ((strip_non_digits_keep_plus input).drop 1) := by
  unfold normalize_phone
  simp [startsWithChar_ne_nil h, h]

/-- On `'+'` followed by digits, `normalize_phone` is `plusPath` on the
digits (for any hint). -/
theorem normalize_plus_eq (t dc : List Char) (h : t.all Char.isDigit = true) :
    normalize_phone ('+' :: t) dc = plusPath ('+' :: t) t := by
  have hs := strip_plus_digits t h
  have hstart : startsWithChar (strip_non_digits_keep_plus ('+' :: t)) '+' = true := by
    rw [hs]
    rfl
  rw [normalize_of_strip_plus dc hstart, hs]
  rfl

/-- When the sanitized input starts with `"00"`, `normalize_phone` re-runs
itself on the rewritten `'+'` form. -/
theorem normalize_of_00 {input : List Char} (dc : List Char)
    (h : (strip_non_digits_keep_plus input).take 2 = ['0', '0']) :
    normalize_phone input dc =
      normalize_phone ('+' :: (strip_non_digits_keep_plus input).drop 2) dc := by
  obtain ⟨rest, hs⟩ : ∃ rest,
      strip_non_digits_keep_plus input = '0' :: '0' :: rest := by
    rcases hstr : strip_non_digits_keep_plus input with _ | ⟨a, _ | ⟨b, rest⟩⟩ <;>
      rw [hstr] at h <;> simp at h
    · obtain ⟨rfl, rfl⟩ := h
      exact ⟨rest, rfl⟩
  conv_lhs => rw [normalize_phone.eq_1]
  rw [hs]
  simp [startsWithChar]

/-- Stripping all leading zeros leaves no leading zero. -/
theorem dropWhile_zero_no_leading (l : List Char) :
    startsWithChar (l.dropWhile (fun c => c == '0')) '0' = false := by
  induction l with
  | nil => rfl
  | cons c t ih =>
    rw [List.dropWhile_cons]
    split
    · exact ih
    · next hc =>
      simpa [startsWithChar] using hc

/-! ## C1: trunk-zero stripping in the '+' path -/

/-- In the `'+'` branch, under trunk-zero stripping the national number is
the remainder with ALL leading zeros removed (`trim_start_matches`). -/
theorem plusPath_trunk_strip {raw digits cc : List Char}
    {iso : Option (List Char)} {p : PhoneNumber}
    (hmatch : match_country_code_pfx digits = some (cc, iso))
    (htrunk : (iso.map is_trunk_zero_country).getD false = true)
    (hzero : startsWithChar (digits.drop cc.length) '0' = true)
    (hres : plusPath raw digits = some p) :
    p.national_number = (digits.drop cc.length).dropWhile (fun c => c == '0') := by
  have hle : cc.length ≤ digits.length := (match_pfx_take hmatch).2.1
  by_cases hall : digits.all Char.isDigit = true
  · unfold plusPath at hres
    by_cases hv : is_valid_e164
        ('+' :: (cc ++ (digits.drop cc.length).dropWhile (fun c => c == '0'))) = true
    · simp only [hall, Bool.not_true, Bool.false_eq_true, if_false, hmatch,
        if_pos hle, htrunk, hzero, Bool.and_self, if_true, eq_self_iff_true,
        hv] at hres
      cases hres
      rfl
    · have hv2 : is_valid_e164
          ('+' :: (cc ++ (digits.drop cc.length).dropWhile (fun c => c == '0'))) = false := by
        simpa using hv
      simp [hall, hmatch, if_pos hle, htrunk, hzero, hv2] at hres
  · have hall2 : digits.all Char.isDigit = false := by simpa using hall
    unfold plusPath at hres
    simp [hall2] at hres

/-- C1 (corrected, counterexample): on `"+84009123456"` the code removes BOTH
leading zeros of the remainder `"009123456"`, not at most one: the resulting
national number is `"9123456"`, which differs from the one-zero-stripped
remainder `"09123456"`. -/
theorem C1_counterexample_two_zeros_removed :
    normalize_phone (str "+84009123456") (str "US") =
      some ⟨str "+84009123456", str "+849123456", str "84",
            str "9123456", some (str "VN")⟩ ∧
    ((str "+84009123456").drop 1).drop (str "84").length = str "009123456" ∧
    str "9123456" ≠ (str "009123456").drop 1 := by
  refine ⟨?_, by decide, by decide⟩
  unfold normalize_phone
  decide

/-- C1 (amended): in the explicit international `'+'` path, when the matched
ISO country is trunk-zero and the remainder after the calling code starts
with `'0'`, ALL leading zeros are stripped (so the resulting national number
never starts with `'0'`), rather than exactly one. -/
theorem C1_amended_strips_all_zeros (input dc cc : List Char)
    (iso : Option (List Char)) (p : PhoneNumber)
    (hstart : startsWithChar (strip_non_digits_keep_plus input) '+' = true)
    (hmatch : match_country_code_pfx
        ((strip_non_digits_keep_plus input).drop 1) = some (cc, iso))
    (htrunk : (iso.map is_trunk_zero_country).getD false = true)
    (hzero : startsWithChar
        (((strip_non_digits_keep_plus input).drop 1).drop cc.length) '0' = true)
    (hres : normalize_phone input dc = some p) :
    p.national_number =
      (((strip_non_digits_keep_plus input).drop 1).drop cc.length).dropWhile
        (fun c => c == '0') ∧
    startsWithChar p.national_number '0' = false := by
  rw [normalize_of_strip_plus dc hstart] at hres
  have h1 := plusPath_trunk_strip hmatch htrunk hzero hres
  exact ⟨h1, by rw [h1]; exact dropWhile_zero_no_leading _⟩

/-- Witness for the amended C1 at the concrete input `"+84009123456"`. -/
theorem C1_amended_witness :
    (⟨str "+84009123456", str "+849123456", str "84", str "9123456",
      some (str "VN")⟩ : PhoneNumber).national_number =
      (((strip_non_digits_keep_plus (str "+84009123456")).drop 1).drop
        (str "84").length).dropWhile (fun c => c == '0') ∧
    startsWithChar (⟨str "+84009123456", str "+849123456", str "84",
      str "9123456", some (str "VN")⟩ : PhoneNumber).national_number '0' = false :=
  C1_amended_strips_all_zeros (str "+84009123456") (str "US") (str "84")
    (some (str "VN"))
    ⟨str "+84009123456", str "+849123456", str "84", str "9123456",
     some (str "VN")⟩
    (by decide) (by decide) (by decide) (by decide)
    (by unfold normalize_phone; decide)

/-! ## C2: idempotence on valid E.164 input -/

/-- C2 (corrected, counterexample): two valid E.164 inputs on which the claim
fails. `"+2001234567"` is valid E.164 but its calling code is unknown, so
`normalize_phone` returns `none`; `"+8409123456"` is valid E.164 but
trunk-zero stripping rewrites it, so the returned `e164` differs from the
input. -/
theorem C2_counterexample_not_idempotent :
    (is_valid_e164 (str "+2001234567") = true ∧
     normalize_phone (str "+2001234567") (str "VN") = none) ∧
    (is_valid_e164 (str "+8409123456") = true ∧
     normalize_phone (str "+8409123456") (str "VN") =
       some ⟨str "+8409123456", str "+849123456", str "84",
             str "9123456", some (str "VN")⟩ ∧
     str "+849123456" ≠ str "+8409123456") := by
  refine ⟨⟨by decide, ?_⟩, ⟨by decide, ?_, by decide⟩⟩
  · unfold normalize_phone
    decide
  · unfold normalize_phone
    decide

/-- C2 (amended): for every valid E.164 `x` whose digits have a known
calling-code prefix and on which no trunk-zero stripping fires, and every
hint, `normalize_phone` returns the parse of `x` itself (`e164 = x`,
independent of the hint). -/
theorem C2_amended_idempotent_when_matched (x dc cc : List Char)
    (iso : Option (List Char))
    (hval : is_valid_e164 x = true)
    (hmatch : match_country_code_pfx (x.drop 1) = some (cc, iso))
    (hnostrip : ((iso.map is_trunk_zero_country).getD false &&
                 startsWithChar ((x.drop 1).drop cc.length) '0') = false) :
    normalize_phone x dc = some ⟨x, x, cc, (x.drop 1).drop cc.length, iso⟩ := by
  obtain ⟨d, rfl, hall, h7, h15⟩ := (valid_iff x).mp hval
  have hd : ('+' :: d : List Char).drop 1 = d := rfl
  rw [hd] at hmatch hnostrip ⊢
  rw [normalize_plus_eq d dc hall]
  obtain ⟨htake, hle, h1len, h3len⟩ := match_pfx_take hmatch
  have he : cc ++ d.drop cc.length = d := by
    conv_rhs => rw [← List.take_append_drop cc.length d]
    rw [← htake]
  unfold plusPath
  simp only [hall, Bool.not_true, Bool.false_eq_true, if_false, hmatch,
    if_pos hle, hnostrip, he, hval, if_true]

/-- Witness for the amended C2 at `x = "+84912345678"`. -/
theorem C2_amended_witness :
    normalize_phone (str "+84912345678") (str "ZZ") =
      some ⟨str "+84912345678", str "+84912345678", str "84",
            ((str "+84912345678").drop 1).drop (str "84").length,
            some (str "VN")⟩ :=
  C2_amended_idempotent_when_matched (str "+84912345678") (str "ZZ")
    (str "84") (some (str "VN")) (by decide) (by decide) (by decide)

/-! ## C3: the raw field through the "00" rewrite path -/

/-- C3 (code bug): on input `"0084912345678"` the `"00"` branch recurses on
the rewritten string `"+84912345678"`, so the returned `raw` field holds the
rewritten form, not the original input — contradicting the field's own doc
comment ("Original input"). -/
theorem C3_raw_not_original_on_00_path :
    normalize_phone (str "0084912345678") (str "VN") =
      some ⟨str "+84912345678", str "+84912345678", str "84",
            str "912345678", some (str "VN")⟩ ∧
    str "+84912345678" ≠ str "0084912345678" := by
  refine ⟨?_, by decide⟩
  unfold normalize_phone
  change normalize_phone (str "+84912345678") (str "VN") = _
  unfold normalize_phone
  decide

/-! ## Result invariants (C5, C9, C10) -/

theorem all_drop {p : Char → Bool} {l : List Char} (n : Nat)
    (h : l.all p = true) : (l.drop n).all p = true := by
  rw [List.all_eq_true] at *
  intro c hc
  exact h c (List.mem_of_mem_drop hc)

theorem cow_iso_domain :
    ∀ c ∈ cowCodesList, (code_to_iso c).isSome = true := by
  decide

theorem isoHintTable_facts :
    ∀ e ∈ isoHintTable, e.2.1 ∈ cowCodesList ∧ e.2.2.isSome = true := by
  decide

/-- `resolve_country_hint` only produces known calling codes, always with an
ISO country attached. -/
theorem resolve_inv {hint cc : List Char} {iso : Option (List Char)}
    (h : resolve_country_hint hint = some (cc, iso)) :
    cc ∈ cowCodesList ∧ iso.isSome = true := by
  simp only [resolve_country_hint] at h
  split at h
  · split at h
    · rcases hcow : code_to_cow_static
          (((rustTrim hint).map Char.toUpper).drop 1) with _ | c
      · simp only [hcow] at h
        cases h
      · simp only [hcow] at h
        obtain ⟨rfl, hmem⟩ := cow_some hcow
        cases h
        exact ⟨hmem, cow_iso_domain _ hmem⟩
    · cases h
  · split at h
    · rcases hcow : code_to_cow_static
          ((rustTrim hint).map Char.toUpper) with _ | c
      · simp only [hcow] at h
        cases h
      · simp only [hcow] at h
        obtain ⟨rfl, hmem⟩ := cow_some hcow
        cases h
        exact ⟨hmem, cow_iso_domain _ hmem⟩
    · rcases hlk : lookupTbl isoHintTable
          ((rustTrim hint).map Char.toUpper) with _ | r
      · simp only [hlk] at h
        cases h
      · simp only [hlk] at h
        cases h
        exact isoHintTable_facts _ (lookupTbl_some_mem hlk)

/-- Invariants of any `some` result of the `'+'` branch. -/
theorem plusPath_inv {raw digits : List Char} {p : PhoneNumber}
    (h : plusPath raw digits = some p) :
    is_valid_e164 p.e164 = true ∧
    p.e164 = '+' :: (p.country_code ++ p.national_number) ∧
    p.country_code ∈ cowCodesList ∧
    p.iso_country.isSome = true := by
  simp only [plusPath] at h
  split at h
  · cases h
  · rcases hm : match_country_code_pfx digits with _ | ⟨cc, iso⟩
    · simp only [hm] at h
      cases h
    · simp only [hm] at h
      obtain ⟨_, _, _, _, hmem, _⟩ := match_pfx_inv hm
      have hiso : iso.isSome = true := match_pfx_iso_some hm
      by_cases hle : cc.length ≤ digits.length
      · simp only [if_pos hle] at h
        by_cases hc : ((iso.map is_trunk_zero_country).getD false &&
            startsWithChar (digits.drop cc.length) '0') = true
        · simp only [if_pos hc] at h
          split at h
          · cases h
          · next hv =>
            cases h
            refine ⟨?_, rfl, hmem, hiso⟩
            simpa using hv
        · simp only [if_neg hc] at h
          split at h
          · cases h
          · next hv =>
            cases h
            refine ⟨?_, rfl, hmem, hiso⟩
            simpa using hv
      · simp only [if_neg hle] at h
        cases h

/-- Invariants of any `some` result of the tail of the local branch, for a
fixed resolved pair. -/
theorem localTail_inv {raw cc : List Char} {iso : Option (List Char)}
    {p : PhoneNumber} (hcc : cc ∈ cowCodesList) (hiso : iso.isSome = true)
    (nsn : List Char)
    (h : (if nsn.isEmpty then none
          else if !is_valid_e164 ('+' :: (cc ++ nsn)) then none
          else some (⟨raw, '+' :: (cc ++ nsn), cc, nsn, iso⟩ : PhoneNumber)) =
         some p) :
    is_valid_e164 p.e164 = true ∧
    p.e164 = '+' :: (p.country_code ++ p.national_number) ∧
    p.country_code ∈ cowCodesList ∧
    p.iso_country.isSome = true := by
  split at h
  · cases h
  · split at h
    · cases h
    · next hv =>
      cases h
      refine ⟨?_, rfl, hcc, hiso⟩
      simpa using hv

/-- Invariants of any `some` result of the local branch. -/
theorem localPath_inv {raw s dc : List Char} {p : PhoneNumber}
    (h : localPath raw s dc = some p) :
    is_valid_e164 p.e164 = true ∧
    p.e164 = '+' :: (p.country_code ++ p.national_number) ∧
    p.country_code ∈ cowCodesList ∧
    p.iso_country.isSome = true := by
  simp only [localPath] at h
  rcases hr : resolve_country_hint dc with _ | ⟨cc, iso⟩
  · simp only [hr] at h
    cases h
  · simp only [hr] at h
    obtain ⟨hcc, hiso⟩ := resolve_inv hr
    exact localTail_inv hcc hiso _ h
/-- Invariants of any `some` result of `normalize_phone`, by induction on
the input length (the `"00"` branch recurses on a shorter input). -/
theorem normalize_some_inv_aux :
    ∀ n input dc p, input.length ≤ n → normalize_phone input dc = some p →
      is_valid_e164 p.e164 = true ∧
      p.e164 = '+' :: (p.country_code ++ p.national_number) ∧
      p.country_code ∈ cowCodesList ∧
      p.iso_country.isSome = true := by
  intro n
  induction n with
  | zero =>
    intro input dc p hlen hres
    have hnil : input = [] := List.eq_nil_of_length_eq_zero (Nat.le_zero.mp hlen)
    subst hnil
    rw [normalize_phone.eq_1] at hres
    simp [strip_non_digits_keep_plus, stripAux] at hres
  | succ n ih =>
    intro input dc p hlen hres
    rcases strip_structure input with hnil | ⟨t, hplus, hdig⟩ | hdig
    · rw [normalize_phone.eq_1] at hres
      simp [hnil] at hres
    · have hstart : startsWithChar (strip_non_digits_keep_plus input) '+' = true := by
        rw [hplus]
        rfl
      rw [normalize_of_strip_plus dc hstart] at hres
      exact plusPath_inv hres
    · by_cases h00 : (strip_non_digits_keep_plus input).take 2 = ['0', '0']
      · rw [normalize_of_00 dc h00] at hres
        have h2 : 2 ≤ (strip_non_digits_keep_plus input).length := by
          have := congrArg List.length h00
          simp [List.length_take] at this
          omega
        have hlen2 : ('+' :: (strip_non_digits_keep_plus input).drop 2).length ≤ n := by
          have h1 : (strip_non_digits_keep_plus input).length ≤ input.length :=
            stripAux_length_le input 0
          simp [List.length_drop]
          omega
        exact ih ('+' :: (strip_non_digits_keep_plus input).drop 2) dc p hlen2 hres
      · rcases hsn : strip_non_digits_keep_plus input with _ | ⟨a, rest⟩
        · rw [normalize_phone.eq_1] at hres
          simp [hsn] at hres
        · have ha : a.isDigit = true := by
            rw [hsn, List.all_cons, Bool.and_eq_true] at hdig
            exact hdig.1
          have hstart : startsWithChar (strip_non_digits_keep_plus input) '+' = false := by
            rw [hsn]
            simp only [startsWithChar, beq_eq_false_iff_ne]
            intro heq
            rw [heq] at ha
            cases ha
          rw [normalize_phone.eq_1] at hres
          rw [if_neg (by simp [hsn]), if_neg (by rw [hstart]; simp),
              dif_neg h00] at hres
          exact localPath_inv hres

theorem normalize_some_inv {input dc : List Char} {p : PhoneNumber}
    (h : normalize_phone input dc = some p) :
    is_valid_e164 p.e164 = true ∧
    p.e164 = '+' :: (p.country_code ++ p.national_number) ∧
    p.country_code ∈ cowCodesList ∧
    p.iso_country.isSome = true :=
  normalize_some_inv_aux input.length input dc p (Nat.le_refl _) h

theorem cowCodes_facts :
    ∀ c ∈ cowCodesList,
      1 ≤ c.length ∧ c.length ≤ 3 ∧ c.all Char.isDigit = true := by
  decide

/-- C5: every `PhoneNumber` returned by `normalize_phone` has a
syntactically valid `e164` (`'+'` then 7-15 digits, per C4), whose digits
are exactly `country_code ++ national_number`; the country code is a 1-3
digit string (hence a prefix of the digits of `e164`), and the national
number is non-empty. -/
theorem C5_result_invariants (input dc : List Char) (p : PhoneNumber)
    (h : normalize_phone input dc = some p) :
    is_valid_e164 p.e164 = true ∧
    p.e164 = '+' :: (p.country_code ++ p.national_number) ∧
    1 ≤ p.country_code.length ∧ p.country_code.length ≤ 3 ∧
    p.country_code.all Char.isDigit = true ∧
    p.national_number ≠ [] := by
  obtain ⟨hval, hsplit, hmem, _⟩ := normalize_some_inv h
  obtain ⟨h1, h3, hdigits⟩ := cowCodes_facts _ hmem
  refine ⟨hval, hsplit, h1, h3, hdigits, ?_⟩
  obtain ⟨d, hde, hall, h7, h15⟩ := (valid_iff _).mp hval
  rw [hsplit] at hde
  have hd : p.country_code ++ p.national_number = d := by
    injection hde
  intro hnil
  rw [hnil, List.append_nil] at hd
  subst hd
  omega

/-- Witness for C5 at a concrete accepted input. -/
theorem C5_witness :
    is_valid_e164 (⟨str "+84912345678", str "+84912345678", str "84",
        str "912345678", some (str "VN")⟩ : PhoneNumber).e164 = true ∧
    (⟨str "+84912345678", str "+84912345678", str "84", str "912345678",
        some (str "VN")⟩ : PhoneNumber).e164 =
      '+' :: ((⟨str "+84912345678", str "+84912345678", str "84",
        str "912345678", some (str "VN")⟩ : PhoneNumber).country_code ++
        (⟨str "+84912345678", str "+84912345678", str "84", str "912345678",
        some (str "VN")⟩ : PhoneNumber).national_number) ∧
    1 ≤ (⟨str "+84912345678", str "+84912345678", str "84", str "912345678",
        some (str "VN")⟩ : PhoneNumber).country_code.length ∧
    (⟨str "+84912345678", str "+84912345678", str "84", str "912345678",
        some (str "VN")⟩ : PhoneNumber).country_code.length ≤ 3 ∧
    (⟨str "+84912345678", str "+84912345678", str "84", str "912345678",
        some (str "VN")⟩ : PhoneNumber).country_code.all Char.isDigit = true ∧
    (⟨str "+84912345678", str "+84912345678", str "84", str "912345678",
        some (str "VN")⟩ : PhoneNumber).national_number ≠ [] :=
  C5_result_invariants (str "+84912345678") (str "US")
    ⟨str "+84912345678", str "+84912345678", str "84", str "912345678",
     some (str "VN")⟩
    (by unfold normalize_phone; decide)

/-- C9: for inputs whose sanitized form starts with `'+'` or `"00"`, the
default-country hint has no influence on the result. -/
theorem C9_hint_noninterference (input h1 h2 : List Char)
    (hint : startsWithChar (strip_non_digits_keep_plus input) '+' = true ∨
            (strip_non_digits_keep_plus input).take 2 = ['0', '0']) :
    normalize_phone input h1 = normalize_phone input h2 := by
  rcases hint with hstart | h00
  · rw [normalize_of_strip_plus h1 hstart, normalize_of_strip_plus h2 hstart]
  · rw [normalize_of_00 h1 h00, normalize_of_00 h2 h00]
    have hdig : ((strip_non_digits_keep_plus input).drop 2).all Char.isDigit = true := by
      rcases strip_structure input with hnil | ⟨t, hplus, _⟩ | hdig
      · rw [hnil]
        rfl
      · rw [hplus] at h00
        simp at h00
      · exact all_drop 2 hdig
    rw [normalize_plus_eq _ h1 hdig, normalize_plus_eq _ h2 hdig]

/-- Witness for C9 at a concrete `'+'`-form input and two distinct hints. -/
theorem C9_witness :
    normalize_phone (str "+84912345678") (str "VN") =
      normalize_phone (str "+84912345678") (str "US") :=
  C9_hint_noninterference (str "+84912345678") (str "VN") (str "US")
    (Or.inl (by decide))

theorem isoTable_keys_known :
    ∀ e ∈ codeIsoTable, is_known_code e.1 = true := by
  decide

/-- C10: the known-code set is exactly the domain of the code-to-ISO table;
`match_country_code_pfx` never returns a `none` ISO; the defensive
`code_to_iso` fallback in `detect_country` is never the step that answers
(the match already carries the same ISO); and every result of
`normalize_phone` has a `some` ISO country. -/
theorem C10_known_codes_coincide :
    (∀ c, is_known_code c = true ↔ (code_to_iso c).isSome = true) ∧
    (∀ d cc iso, match_country_code_pfx d = some (cc, iso) →
       iso.isSome = true) ∧
    (∀ e r, detect_country e = some r →
       ∃ cc, match_country_code_pfx (e.drop 1) = some (cc, some r)) ∧
    (∀ input dc p, normalize_phone input dc = some p →
       p.iso_country.isSome = true) := by
  refine ⟨?_, ?_, ?_, ?_⟩
  · intro c
    constructor
    · intro h
      exact known_iso_domain c (contains_mem h)
    · intro h
      obtain ⟨i, hi⟩ := Option.isSome_iff_exists.mp h
      exact isoTable_keys_known _ (lookupTbl_some_mem hi)
  · intro d cc iso h
    exact match_pfx_iso_some h
  · intro e r h
    unfold detect_country at h
    split at h
    · cases h
    · rcases hm : match_country_code_pfx (e.drop 1) with _ | ⟨cc, iso⟩
      · simp only [hm] at h
        cases h
      · simp only [hm] at h
        have hiso := match_pfx_iso_some hm
        rcases iso with _ | i
        · cases hiso
        · cases h
          exact ⟨cc, rfl⟩
  · intro input dc p h
    exact (normalize_some_inv h).2.2.2

/-- Witness for C10 applying its first component at a concrete code. -/
theorem C10_witness :
    (code_to_iso (str "84")).isSome = true :=
  (C10_known_codes_coincide.1 (str "84")).mp (by decide)

/-! ## C6: detect_country round trip -/

/-- The known-code set is prefix-free (checked by computation). -/
theorem knownCodes_pfx_free :
    ∀ a ∈ knownCodesList, ∀ b ∈ knownCodesList, a <+: b → a = b := by
  decide

theorem isoTable_keys_cow :
    ∀ e ∈ codeIsoTable, e.1 ∈ cowCodesList := by
  decide

theorem knownCodes_len_facts :
    ∀ c ∈ knownCodesList, 1 ≤ c.length ∧ c.length ≤ 3 := by
  decide

/-- A longer candidate than a known code sitting at the front of the digits
is never itself known, so the loop continues. -/
theorem tryLen_skip {cc nsn : List Char} {len : Nat}
    (hcc : cc ∈ knownCodesList) (hlt : cc.length < len)
    (hle : len ≤ (cc ++ nsn).length) :
    tryLen (cc ++ nsn) len = none := by
  simp only [tryLen]
  rw [if_neg (by omega)]
  have htake : (cc ++ nsn).take len = cc ++ nsn.take (len - cc.length) := by
    have hsplit : len = cc.length + (len - cc.length) := by omega
    conv_lhs => rw [hsplit]
    rw [List.take_append]
  have hcand_pfx : cc <+: (cc ++ nsn).take len := by
    rw [htake]
    exact ⟨nsn.take (len - cc.length), rfl⟩
  have hlen_cand : ((cc ++ nsn).take len).length = len := by
    rw [List.length_take]
    omega
  have hnot : (cc ++ nsn).take len ∉ knownCodesList := by
    intro hmem
    have heq := knownCodes_pfx_free cc hcc _ hmem hcand_pfx
    rw [← heq] at hlen_cand
    omega
  have hiso : code_to_iso ((cc ++ nsn).take len) = none := by
    rcases h : code_to_iso ((cc ++ nsn).take len) with _ | i
    · rfl
    · exact absurd (contains_mem (isoTable_keys_known _ (lookupTbl_some_mem h))) hnot
  have hknown : is_known_code ((cc ++ nsn).take len) = false := by
    rcases h : is_known_code ((cc ++ nsn).take len) with _ | _
    · rfl
    · exact absurd (contains_mem h) hnot
  simp [hiso, hknown]

/-- At the known code's own length the loop returns the code and its ISO. -/
theorem tryLen_hit {cc nsn iso : List Char}
    (hiso : code_to_iso cc = some iso) :
    tryLen (cc ++ nsn) cc.length = some (some (cc, some iso)) := by
  have hmem : cc ∈ cowCodesList :=
    isoTable_keys_cow _ (lookupTbl_some_mem hiso)
  have hcow : code_to_cow_static cc = some cc := by
    unfold code_to_cow_static
    rw [if_pos (by simpa using hmem)]
  simp only [tryLen]
  rw [if_neg (by simp [List.length_append])]
  rw [List.take_left]
  simp only [hiso, hcow]

/-- C6: for every calling code in the code-to-ISO table and every national
number forming a valid E.164 string, `detect_country` recovers exactly that
table's ISO country (longest-prefix matching never mis-identifies). -/
theorem C6_detect_round_trip (cc iso nsn : List Char)
    (hiso : code_to_iso cc = some iso)
    (hval : is_valid_e164 ('+' :: (cc ++ nsn)) = true) :
    detect_country ('+' :: (cc ++ nsn)) = some iso := by
  have hmemK : cc ∈ knownCodesList :=
    contains_mem (isoTable_keys_known _ (lookupTbl_some_mem hiso))
  obtain ⟨hcl1, hcl3⟩ := knownCodes_len_facts _ hmemK
  obtain ⟨d, hde, hall, h7, h15⟩ := (valid_iff _).mp hval
  have hd : cc ++ nsn = d := by
    injection hde
  have hdlen : 7 ≤ (cc ++ nsn).length := by
    rw [hd]
    exact h7
  have hmatch : match_country_code_pfx (cc ++ nsn) = some (cc, some iso) := by
    unfold match_country_code_pfx
    rcases hcl : cc.length with _ | _ | _ | _ | k
    · omega
    · rw [tryLen_skip hmemK (by omega) (by omega),
          tryLen_skip hmemK (by omega) (by omega)]
      rw [show (1 : Nat) = cc.length by omega]
      rw [tryLen_hit hiso]
    · rw [tryLen_skip hmemK (by omega) (by omega)]
      rw [show (2 : Nat) = cc.length by omega]
      rw [tryLen_hit hiso]
    · rw [show (3 : Nat) = cc.length by omega]
      rw [tryLen_hit hiso]
    · omega
  unfold detect_country
  rw [if_neg (by rw [hval]; simp)]
  have hdrop : ('+' :: (cc ++ nsn) : List Char).drop 1 = cc ++ nsn := rfl
  rw [hdrop]
  simp only [hmatch]

/-- Witness for C6 at the Vietnamese calling code and a concrete number. -/
theorem C6_witness :
    detect_country ('+' :: (str "84" ++ str "912345678")) =
      some (str "VN") :=
  C6_detect_round_trip (str "84") (str "VN") (str "912345678")
    (by decide) (by decide)

/-! ## C4 and C7 -/

/-- C4: `is_valid_e164 s` is true iff `s` starts with `'+'`, the remainder
after the `'+'` is non-empty and all ASCII digits, and its length is between
7 and 15 inclusive. -/
theorem C4_is_valid_e164_syntax (s : List Char) :
    is_valid_e164 s = true ↔
      (startsWithChar s '+' = true ∧ s.drop 1 ≠ [] ∧
       (∀ c ∈ s.drop 1, c.isDigit = true) ∧
       7 ≤ (s.drop 1).length ∧ (s.drop 1).length ≤ 15) := by
  rw [valid_iff]
  constructor
  · rintro ⟨d, rfl, hall, h7, h15⟩
    refine ⟨rfl, ?_, ?_, by simpa using h7, by simpa using h15⟩
    · simp only [List.drop_one, List.tail_cons]
      intro hnil
      subst hnil
      simp at h7
    · simpa [List.all_eq_true] using hall
  · rintro ⟨hstart, hne, hdig, h7, h15⟩
    cases s with
    | nil => simp [startsWithChar] at hstart
    | cons c d =>
      have hc : c = '+' := by
        simpa [startsWithChar] using hstart
      subst hc
      refine ⟨d, rfl, ?_, by simpa using h7, by simpa using h15⟩
      rw [List.all_eq_true]
      intro x hx
      exact hdig x (by simpa using hx)

/-- C7: `normalize_phone "0912 345 678" "VN"` yields
`+84912345678` decomposed as country code `84`, national number
`912345678`, ISO country `VN`. -/
theorem C7_vn_mobile_example :
    normalize_phone (str "0912 345 678") (str "VN") =
      some ⟨str "0912 345 678", str "+84912345678", str "84",
            str "912345678", some (str "VN")⟩ := by
  unfold normalize_phone
  decide

/-! ## C8: totality / absence of panics -/

theorem sliceFromE_ok {s : List Char} {i : Nat} (h : i ≤ s.length) :
    sliceFromE s i = Except.ok (s.drop i) := by
  unfold sliceFromE
  rw [if_pos h]

theorem slicePreE_ok {s : List Char} {n : Nat} (h : n ≤ s.length) :
    slicePreE s n = Except.ok (s.take n) := by
  unfold slicePreE
  rw [if_pos h]

theorem is_valid_e164E_eq (s : List Char) :
    is_valid_e164E s = Except.ok (is_valid_e164 s) := by
  cases s with
  | nil => rfl
  | cons a t =>
    by_cases ha : a = '+'
    · subst ha
      have h1 : 1 ≤ ('+' :: t : List Char).length := by simp
      by_cases hc : (t.isEmpty || !t.all Char.isDigit) = true
      · simp [is_valid_e164E, is_valid_e164, startsWithChar, sliceFromE, hc]
      · simp [is_valid_e164E, is_valid_e164, startsWithChar, sliceFromE, hc]
    · have hs : startsWithChar (a :: t) '+' = false := by
        simp [startsWithChar, ha]
      simp [is_valid_e164E, is_valid_e164, hs, ha]

theorem tryLenE_eq (d : List Char) (len : Nat) :
    tryLenE d len = Except.ok (tryLen d len) := by
  by_cases hlt : d.length < len
  · simp [tryLenE, tryLen, hlt]
  · have hle : len ≤ d.length := by omega
    unfold tryLenE tryLen
    rw [if_neg hlt, if_neg hlt, slicePreE_ok hle]
    rcases hi : code_to_iso (d.take len) with _ | i
    · simp only [hi]
      by_cases hk : is_known_code (d.take len) = true <;> simp [hk]
    · simp only [hi]

theorem matchPfxE_eq (d : List Char) :
    match_country_code_pfxE d = Except.ok (match_country_code_pfx d) := by
  unfold match_country_code_pfxE match_country_code_pfx
  rw [tryLenE_eq d 3, tryLenE_eq d 2, tryLenE_eq d 1]
  rcases tryLen d 3 with _ | r3
  · rcases tryLen d 2 with _ | r2
    · rcases tryLen d 1 with _ | r1 <;> rfl
    · rfl
  · rfl

theorem resolveE_eq (hint : List Char) :
    resolve_country_hintE hint = Except.ok (resolve_country_hint hint) := by
  simp only [resolve_country_hintE, resolve_country_hint]
  by_cases hst : startsWithChar ((rustTrim hint).map Char.toUpper) '+' = true
  · have h1 : 1 ≤ ((rustTrim hint).map Char.toUpper).length := by
      rcases hu : (rustTrim hint).map Char.toUpper with _ | ⟨a, t⟩
      · rw [hu] at hst
        cases hst
      · simp
    simp only [hst, Bool.true_and, if_true, sliceFromE_ok h1]
    by_cases hd : (((rustTrim hint).map Char.toUpper).drop 1).all Char.isDigit = true
    · simp only [hd, if_true]
      by_cases hc2 : (!(((rustTrim hint).map Char.toUpper).drop 1).isEmpty &&
          decide ((((rustTrim hint).map Char.toUpper).drop 1).length ≤ 3)) = true
      · simp only [hc2, if_true]
        rcases code_to_cow_static (((rustTrim hint).map Char.toUpper).drop 1)
          with _ | c <;> rfl
      · rw [if_neg hc2, if_neg hc2]
    · have hd2 : (((rustTrim hint).map Char.toUpper).drop 1).all Char.isDigit = false := by
        simpa using hd
      simp only [hd2, Bool.false_eq_true, if_false]
      by_cases h2 : (((rustTrim hint).map Char.toUpper).all Char.isDigit &&
          !((rustTrim hint).map Char.toUpper).isEmpty &&
          decide (((rustTrim hint).map Char.toUpper).length ≤ 3)) = true
      · simp only [h2, if_true]
        rcases code_to_cow_static ((rustTrim hint).map Char.toUpper)
          with _ | c <;> rfl
      · rw [if_neg h2, if_neg h2]
        rcases lookupTbl isoHintTable ((rustTrim hint).map Char.toUpper)
          with _ | r <;> rfl
  · have hst2 : startsWithChar ((rustTrim hint).map Char.toUpper) '+' = false := by
      simpa using hst
    simp only [hst2, Bool.false_and, Bool.false_eq_true, if_false]
    by_cases h2 : (((rustTrim hint).map Char.toUpper).all Char.isDigit &&
        !((rustTrim hint).map Char.toUpper).isEmpty &&
        decide (((rustTrim hint).map Char.toUpper).length ≤ 3)) = true
    · simp only [h2, if_true]
      rcases code_to_cow_static ((rustTrim hint).map Char.toUpper)
        with _ | c <;> rfl
    · rw [if_neg h2, if_neg h2]
      rcases lookupTbl isoHintTable ((rustTrim hint).map Char.toUpper)
        with _ | r <;> rfl

theorem plusPathE_eq (raw digits : List Char) :
    plusPathE raw digits = Except.ok (plusPath raw digits) := by
  simp only [plusPathE, plusPath]
  by_cases hall : (!digits.all Char.isDigit) = true
  · rw [if_pos hall, if_pos hall]
  · rw [if_neg hall, if_neg hall]
    rcases hm : match_country_code_pfx digits with _ | ⟨cc, iso⟩
    · simp only [matchPfxE_eq, hm]
    · simp only [matchPfxE_eq, hm]
      by_cases hle : cc.length ≤ digits.length
      · simp only [if_pos hle]
        by_cases hc : ((iso.map is_trunk_zero_country).getD false &&
            startsWithChar (digits.drop cc.length) '0') = true
        · simp only [hc, if_true, is_valid_e164E_eq]
          by_cases hv : (!is_valid_e164 ('+' :: (cc ++
              (digits.drop cc.length).dropWhile (fun c => c == '0')))) = true
          · simp only [hv, if_true]
          · simp only [Bool.not_eq_true] at hv
            simp only [hv, Bool.not_false, Bool.false_eq_true, if_false, if_true]
        · simp only [Bool.not_eq_true] at hc
          simp only [hc, Bool.false_eq_true, if_false, is_valid_e164E_eq]
          by_cases hv : (!is_valid_e164 ('+' :: (cc ++ digits.drop cc.length))) = true
          · simp only [hv, if_true]
          · simp only [Bool.not_eq_true] at hv
            simp only [hv, Bool.not_false, Bool.false_eq_true, if_false, if_true]
      · simp only [if_neg hle]

theorem localTailE_eq (raw cc : List Char) (iso : Option (List Char))
    (nsn : List Char) :
    (if nsn.isEmpty then (Except.ok none : Except Unit (Option PhoneNumber))
     else
       match is_valid_e164E ('+' :: (cc ++ nsn)) with
       | Except.error e => Except.error e
       | Except.ok b =>
         if !b then Except.ok none
         else Except.ok (some ⟨raw, '+' :: (cc ++ nsn), cc, nsn, iso⟩)) =
    Except.ok (if nsn.isEmpty then none
      else if !is_valid_e164 ('+' :: (cc ++ nsn)) then none
      else some ⟨raw, '+' :: (cc ++ nsn), cc, nsn, iso⟩) := by
  by_cases hemp : nsn.isEmpty = true
  · rw [if_pos hemp, if_pos hemp]
  · rw [if_neg hemp, if_neg hemp]
    simp only [is_valid_e164E_eq]
    by_cases hv : (!is_valid_e164 ('+' :: (cc ++ nsn))) = true
    · simp only [hv, if_true]
    · simp only [Bool.not_eq_true] at hv
      simp only [hv, Bool.not_false, Bool.false_eq_true, if_false, if_true]

theorem localPathE_eq (raw s dc : List Char) :
    localPathE raw s dc = Except.ok (localPath raw s dc) := by
  simp only [localPathE, localPath]
  rcases hr : resolve_country_hint dc with _ | ⟨cc, iso⟩
  · simp only [resolveE_eq, hr]
  · simp only [resolveE_eq, hr]
    by_cases ht : (iso.map is_trunk_zero_country).getD false = true
    · simp only [ht, if_true]
      by_cases hsw : startsWithChar (s.filter Char.isDigit) '0' = true
      · simp only [hsw, if_true]
        rcases hn : s.filter Char.isDigit with _ | ⟨a, t⟩
        · rw [hn] at hsw
          cases hsw
        · simp only [hn, removeFirstE, List.drop_succ_cons, List.drop_zero]
          exact localTailE_eq raw cc iso t
      · simp only [Bool.not_eq_true] at hsw
        simp only [hsw, Bool.false_eq_true, if_false]
        exact localTailE_eq raw cc iso (s.filter Char.isDigit)
    · simp only [Bool.not_eq_true] at ht
      simp only [ht, Bool.false_eq_true, if_false]
      exact localTailE_eq raw cc iso (s.filter Char.isDigit)

theorem normalizeE_eq_aux :
    ∀ n input dc, input.length ≤ n →
      normalize_phoneE input dc = Except.ok (normalize_phone input dc) := by
  intro n
  induction n with
  | zero =>
    intro input dc hlen
    have hnil : input = [] := List.eq_nil_of_length_eq_zero (Nat.le_zero.mp hlen)
    subst hnil
    rw [normalize_phoneE.eq_1, normalize_phone.eq_1]
    rfl
  | succ n ih =>
    intro input dc hlen
    rw [normalize_phoneE.eq_1, normalize_phone.eq_1]
    by_cases hemp : (strip_non_digits_keep_plus input).isEmpty = true
    · rw [if_pos hemp, if_pos hemp]
    · rw [if_neg hemp, if_neg hemp]
      by_cases hst : startsWithChar (strip_non_digits_keep_plus input) '+' = true
      · rw [if_pos hst, if_pos hst]
        have h1 : 1 ≤ (strip_non_digits_keep_plus input).length := by
          rcases hs : strip_non_digits_keep_plus input with _ | ⟨a, t⟩
          · rw [hs] at hemp
            exact absurd rfl hemp
          · simp
        rw [sliceFromE_ok h1]
        exact plusPathE_eq input _
      · rw [if_neg hst, if_neg hst]
        by_cases h00 : (strip_non_digits_keep_plus input).take 2 = ['0', '0']
        · rw [dif_pos h00, dif_pos h00]
          have h2 : 2 ≤ (strip_non_digits_keep_plus input).length := by
            have := congrArg List.length h00
            simp [List.length_take] at this
            omega
          rw [sliceFromE_ok h2]
          have hb : (strip_non_digits_keep_plus input).length ≤ input.length :=
            stripAux_length_le input 0
          have hlen2 : ('+' :: (strip_non_digits_keep_plus input).drop 2).length ≤ n := by
            simp [List.length_drop]
            omega
          exact ih ('+' :: (strip_non_digits_keep_plus input).drop 2) dc hlen2
        · rw [dif_neg h00, dif_neg h00]
          exact localPathE_eq input _ dc

/-- C8: `normalize_phone` is total and panic-free. The panic-aware shadow
model — in which every internal slice and `remove(0)` reports a would-be
panic as `Except.error` — always returns `Except.ok` of the plain model's
result, for every input string and every hint; failures surface only as a
`none` result. -/
theorem C8_total_no_panic (input dc : List Char) :
    normalize_phoneE input dc = Except.ok (normalize_phone input dc) :=
  normalizeE_eq_aux input.length input dc (Nat.le_refl _)

end Starlight
